import Mathlib

/-!
# Verification of the `AssistantEdit` configuration editor

Shallow embedding of `src/workbench-app/src/components/Assistants/AssistantEdit.tsx`
(the `AssistantEdit` React component together with its helpers
`extractDefaultsFromSchema`, `traverse` and `setDefault`), and proofs about it.

JSON documents and JSON-schema trees are both values of the inductive type
`JVal` below.  JavaScript object semantics relevant to the source are modelled
explicitly:
* property access `a[k]` is `jsRead a k` (field lookup for objects, index
  lookup for arrays; character indexing of strings, `length`, and
  prototype-inherited properties are not modelled — in the source they can
  only produce nodes that contribute no defaults, see the comment at
  `jsEntries`);
* truthiness tests (`if (schema.properties)`, `if (schema.$ref)`,
  `if (refSchema)`, `if (!current[path[i]])`) are `truthy`;
* object spread `{...x}` is `spreadObj` (own enumerable properties);
* property assignment `obj[k] = v` is `jsSet` (replaces in place, preserving
  insertion order, or appends);
* `path[path.length - 1]` for an empty `path` is JavaScript `path[-1] =
  undefined`, and `obj[undefined] = v` writes the literal string key
  `"undefined"` — reproduced in `setDefault`.

The recursive schema traversal is embedded with explicit fuel (first `Nat`
argument): `$ref` resolution can jump anywhere into the `$defs` table, so the
recursion is not structural; `TR.out` marks fuel exhaustion.  A thrown
JavaScript `TypeError` (visiting a `null` node, or calling `.replace` on a
truthy non-string `$ref`) is `TR.err`.  The source's `traverse` mutates the
shared `defaults` object through `setDefault` at each visit; the embedding
collects the `(path, value)` writes in visit order and `applyWrites` replays
them in that order, which is observationally identical because each
`setDefault` call depends only on the accumulated document.
-/

namespace AssistantEdit

/-- JSON values (and JSON-schema nodes, which in the source are ordinary JSON
values).  Objects are insertion-ordered association lists, as JavaScript
objects are; numbers are modelled as integers (no claim involves fractional
values). -/
inductive JVal where
  | null : JVal
  | boolean : Bool → JVal
  | num : Int → JVal
  | str : String → JVal
  | arr : List JVal → JVal
  | obj : List (String × JVal) → JVal

namespace JVal

mutual

/-- Decidable equality for `JVal` (the derive handler does not support the
nested occurrence of `List`). -/
def decEqJ : (a b : JVal) → Decidable (a = b)
  | .null, .null => isTrue rfl
  | .boolean a, .boolean b =>
      match inferInstanceAs (Decidable (a = b)) with
      | isTrue h => isTrue (by rw [h])
      | isFalse h => isFalse (by intro e; exact h (JVal.boolean.inj e))
  | .num a, .num b =>
      match inferInstanceAs (Decidable (a = b)) with
      | isTrue h => isTrue (by rw [h])
      | isFalse h => isFalse (by intro e; exact h (JVal.num.inj e))
  | .str a, .str b =>
      match inferInstanceAs (Decidable (a = b)) with
      | isTrue h => isTrue (by rw [h])
      | isFalse h => isFalse (by intro e; exact h (JVal.str.inj e))
  | .arr xs, .arr ys =>
      match decEqA xs ys with
      | isTrue h => isTrue (by rw [h])
      | isFalse h => isFalse (by intro e; exact h (JVal.arr.inj e))
  | .obj fs, .obj gs =>
      match decEqO fs gs with
      | isTrue h => isTrue (by rw [h])
      | isFalse h => isFalse (by intro e; exact h (JVal.obj.inj e))
  | .null, .boolean _ => isFalse (by intro h; exact JVal.noConfusion h)
  | .null, .num _ => isFalse (by intro h; exact JVal.noConfusion h)
  | .null, .str _ => isFalse (by intro h; exact JVal.noConfusion h)
  | .null, .arr _ => isFalse (by intro h; exact JVal.noConfusion h)
  | .null, .obj _ => isFalse (by intro h; exact JVal.noConfusion h)
  | .boolean _, .null => isFalse (by intro h; exact JVal.noConfusion h)
  | .boolean _, .num _ => isFalse (by intro h; exact JVal.noConfusion h)
  | .boolean _, .str _ => isFalse (by intro h; exact JVal.noConfusion h)
  | .boolean _, .arr _ => isFalse (by intro h; exact JVal.noConfusion h)
  | .boolean _, .obj _ => isFalse (by intro h; exact JVal.noConfusion h)
  | .num _, .null => isFalse (by intro h; exact JVal.noConfusion h)
  | .num _, .boolean _ => isFalse (by intro h; exact JVal.noConfusion h)
  | .num _, .str _ => isFalse (by intro h; exact JVal.noConfusion h)
  | .num _, .arr _ => isFalse (by intro h; exact JVal.noConfusion h)
  | .num _, .obj _ => isFalse (by intro h; exact JVal.noConfusion h)
  | .str _, .null => isFalse (by intro h; exact JVal.noConfusion h)
  | .str _, .boolean _ => isFalse (by intro h; exact JVal.noConfusion h)
  | .str _, .num _ => isFalse (by intro h; exact JVal.noConfusion h)
  | .str _, .arr _ => isFalse (by intro h; exact JVal.noConfusion h)
  | .str _, .obj _ => isFalse (by intro h; exact JVal.noConfusion h)
  | .arr _, .null => isFalse (by intro h; exact JVal.noConfusion h)
  | .arr _, .boolean _ => isFalse (by intro h; exact JVal.noConfusion h)
  | .arr _, .num _ => isFalse (by intro h; exact JVal.noConfusion h)
  | .arr _, .str _ => isFalse (by intro h; exact JVal.noConfusion h)
  | .arr _, .obj _ => isFalse (by intro h; exact JVal.noConfusion h)
  | .obj _, .null => isFalse (by intro h; exact JVal.noConfusion h)
  | .obj _, .boolean _ => isFalse (by intro h; exact JVal.noConfusion h)
  | .obj _, .num _ => isFalse (by intro h; exact JVal.noConfusion h)
  | .obj _, .str _ => isFalse (by intro h; exact JVal.noConfusion h)
  | .obj _, .arr _ => isFalse (by intro h; exact JVal.noConfusion h)

/-- Decidable equality on element lists. -/
def decEqA : (a b : List JVal) → Decidable (a = b)
  | [], [] => isTrue rfl
  | [], _ :: _ => isFalse (by intro h; exact List.noConfusion h)
  | _ :: _, [] => isFalse (by intro h; exact List.noConfusion h)
  | x :: xs, y :: ys =>
      match decEqJ x y, decEqA xs ys with
      | isTrue h1, isTrue h2 => isTrue (by rw [h1, h2])
      | isFalse h1, _ => isFalse (by intro e; injection e with e1 _; exact h1 e1)
      | _, isFalse h2 => isFalse (by intro e; injection e with _ e2; exact h2 e2)

/-- Decidable equality on field lists. -/
def decEqO : (a b : List (String × JVal)) → Decidable (a = b)
  | [], [] => isTrue rfl
  | [], _ :: _ => isFalse (by intro h; exact List.noConfusion h)
  | _ :: _, [] => isFalse (by intro h; exact List.noConfusion h)
  | (k, v) :: fs, (k2, v2) :: gs =>
      match inferInstanceAs (Decidable (k = k2)), decEqJ v v2, decEqO fs gs with
      | isTrue h0, isTrue h1, isTrue h2 => isTrue (by rw [h0, h1, h2])
      | isFalse h0, _, _ =>
          isFalse (by intro e; injection e with e1 _; exact h0 (congrArg Prod.fst e1))
      | _, isFalse h1, _ =>
          isFalse (by intro e; injection e with e1 _; exact h1 (congrArg Prod.snd e1))
      | _, _, isFalse h2 => isFalse (by intro e; injection e with _ e2; exact h2 e2)

end

instance : DecidableEq JVal := decEqJ

/-- First-match association-list lookup, the JS own-property lookup on an
object's field list. -/
def lookupField : List (String × JVal) → String → Option JVal
  | [], _ => none
  | (k2, v) :: rest, k => if k2 = k then some v else lookupField rest k

/-- JS property assignment on a field list: replaces the first matching key in
place (JavaScript objects keep the original insertion position on
re-assignment) or appends a fresh key at the end. -/
def setField : List (String × JVal) → String → JVal → List (String × JVal)
  | [], k, v => [(k, v)]
  | (k2, v2) :: rest, k, v =>
      if k2 = k then (k, v) :: rest else (k2, v2) :: setField rest k v

/-- Own enumerable properties of a value, as seen by `for (const key in x)`
and by object spread `{...x}`.  Objects enumerate their fields; arrays their
elements under stringified indices.  Strings also enumerate their characters
in JavaScript, and arrays/strings additionally expose a non-enumerable
`length`: neither is modelled — in the traversal such properties can only
yield nodes without `default`/`properties`/`$ref` fields, hence no writes;
claims whose truth could be affected carry a well-formedness hypothesis
(`Sane`) ruling these shapes out. -/
def jsEntries : JVal → List (String × JVal)
  | obj fs => fs
  | arr xs => ((List.range xs.length).zip xs).map fun p => (toString p.1, p.2)
  | _ => []

/-- JS property read `a[k]` (over the modelled own enumerable properties). -/
def jsRead (a : JVal) (k : String) : Option JVal :=
  lookupField (jsEntries a) k

/-- JS truthiness: `null`, `false`, `0` and `""` are falsy; objects and arrays
are always truthy. -/
def truthy : JVal → Bool
  | null => false
  | boolean b => b
  | num n => n ≠ 0
  | str s => s ≠ ""
  | arr _ => true
  | obj _ => true

/-- Object spread `{...x}`: a fresh object holding the own enumerable
properties of `x` (`{...5}` and `{...true}` are `{}`). -/
def spreadObj (a : JVal) : JVal :=
  obj (jsEntries a)

/-- JS property write `a[k] = v`.  The source only ever assigns into plain
objects (the `defaults` accumulator and the fresh `{}`/spread copies built by
`setDefault`); on non-objects this is the identity, an unreachable case. -/
def jsSet : JVal → String → JVal → JVal
  | obj fs, k, v => obj (setField fs k v)
  | a, _, _ => a

/-- `true` iff the value is a JS plain object. -/
def isObjB : JVal → Bool
  | obj _ => true
  | _ => false

/-- Document lookup along a key path (`getPath d [] = some d`). -/
def getPath : JVal → List String → Option JVal
  | d, [] => some d
  | d, k :: rest =>
      match jsRead d k with
      | some x => getPath x rest
      | none => none

end JVal

open JVal

/-! ## `setDefault` (source lines 202–214)

```js
function setDefault(obj, path, value) {
    let current = obj;
    for (let i = 0; i < path.length - 1; i++) {
        if (!current[path[i]]) {
            current[path[i]] = {};
        } else {
            // Create a new object to avoid modifying read-only properties
            current[path[i]] = { ...current[path[i]] };
        }
        current = current[path[i]];
    }
    current[path[path.length - 1]] = value;
}
```
The loop body is `freshLevel`; the final assignment for an empty `path`
indexes `path[-1]`, i.e. JS `undefined`, which coerces to the property key
`"undefined"`. -/

/-- One intermediate level of `setDefault`'s walk: a falsy (or absent) slot is
replaced by `{}`, a truthy slot by a shallow spread copy. -/
def freshLevel : Option JVal → JVal
  | none => JVal.obj []
  | some x => if truthy x then spreadObj x else JVal.obj []

/-- Pure rendering of the source's `setDefault` (it mutates `obj` in place;
here the updated document is returned). -/
def setDefault : JVal → List String → JVal → JVal
  | d, [], v => jsSet d "undefined" v
  | d, [k], v => jsSet d k v
  | d, k :: k2 :: rest, v =>
      jsSet d k (setDefault (freshLevel (jsRead d k)) (k2 :: rest) v)

/-- Replay a list of `(path, value)` writes through `setDefault`, in order. -/
def applyWrites (ws : List (List String × JVal)) (d : JVal) : JVal :=
  ws.foldl (fun acc pv => setDefault acc pv.1 pv.2) d

/-! ## `$ref` resolution (source lines 191–198)

```js
const refPath = schema.$ref.replace(/^#\/\$defs\//, '').split('/');
const refSchema = refPath.reduce((acc, key) => acc?.[key], rootSchema.$defs);
```
-/

/-- `stripLead pat s = some rest` iff `s = pat ++ rest` (anchored prefix
match, as the `/^.../` regular expression). -/
def stripLead : List Char → List Char → Option (List Char)
  | [], rest => some rest
  | _ :: _, [] => none
  | p :: ps, c :: cs => if p = c then stripLead ps cs else none

/-- The anchored pattern of the source's `.replace` call. -/
def defsMarker : String := "#/$defs/"

/-- `r.replace(/^#\/\$defs\//, '')`: drop the marker when it leads, else keep
`r` unchanged. -/
def stripDefsMarker (r : String) : String :=
  match stripLead defsMarker.data r.data with
  | some rest => String.mk rest
  | none => r

/-- `.split('/')` on a character list (JS semantics: `"".split è [""]`,
separators never dropped). -/
def splitSlash : List Char → List Char → List String
  | acc, [] => [String.mk acc.reverse]
  | acc, c :: cs =>
      if c = '/' then String.mk acc.reverse :: splitSlash [] cs
      else splitSlash (c :: acc) cs

/-- The segment list `refPath` computed from a `$ref` string. -/
def refSegs (r : String) : List String :=
  splitSlash [] (stripDefsMarker r).data

/-- `refPath.reduce((acc, key) => acc?.[key], rootSchema.$defs)`. -/
def resolveRef (root : JVal) (r : String) : Option JVal :=
  (refSegs r).foldl (fun acc k => acc.bind fun a => jsRead a k) (jsRead root "$defs")

/-! ## The traversal (source lines 180–200) -/

/-- Result of a fuelled traversal: `out` = fuel exhausted (the run was cut
short, no statement about the source is made), `err` = the JS code throws a
`TypeError` (visiting a `null` node dereferences `null.default`; a truthy
non-string `$ref` has no `.replace`), `ok ws ds` = normal completion with the
`setDefault` writes `ws` (in visit order) and the `console.error` diagnostics
`ds`. -/
inductive TR where
  | out : TR
  | err : TR
  | ok : List (List String × JVal) → List String → TR

instance : DecidableEq TR := fun a b =>
  match a, b with
  | .out, .out => isTrue rfl
  | .err, .err => isTrue rfl
  | .ok w d, .ok w2 d2 =>
      match inferInstanceAs (Decidable (w = w2)), inferInstanceAs (Decidable (d = d2)) with
      | isTrue h1, isTrue h2 => isTrue (by rw [h1, h2])
      | isFalse h1, _ => isFalse (by intro e; injection e with e1 _; exact h1 e1)
      | _, isFalse h2 => isFalse (by intro e; injection e with _ e2; exact h2 e2)
  | .out, .err => isFalse (by intro h; exact TR.noConfusion h)
  | .out, .ok _ _ => isFalse (by intro h; exact TR.noConfusion h)
  | .err, .out => isFalse (by intro h; exact TR.noConfusion h)
  | .err, .ok _ _ => isFalse (by intro h; exact TR.noConfusion h)
  | .ok _ _, .out => isFalse (by intro h; exact TR.noConfusion h)
  | .ok _ _, .err => isFalse (by intro h; exact TR.noConfusion h)

/-- Sequencing of traversal results: `out` and `err` short-circuit. -/
def trBind : TR → (List (List String × JVal) → List String → TR) → TR
  | .out, _ => .out
  | .err, _ => .err
  | .ok ws ds, f => f ws ds

/-- Left fold of a child-visiting function over property entries,
accumulating writes and diagnostics in order (the `for (const key in
schema.properties)` loop). -/
def tkFoldAux (f : String × JVal → TR) : List (String × JVal) → TR → TR
  | [], acc => acc
  | kb :: rest, acc =>
      tkFoldAux f rest
        (trBind acc fun w1 d1 => trBind (f kb) fun w2 d2 => .ok (w1 ++ w2) (d1 ++ d2))

/-- The node's own contribution: `if (schema.default !== undefined)
setDefault(defaults, path, schema.default)` — a single write at the current
path when the node declares a `default`. -/
def ownWrites (s : JVal) (path : List String) : List (List String × JVal) :=
  match jsRead s "default" with
  | some d => [(path, d)]
  | none => []

/-- The property entries visited by `for (const key in schema.properties)`
under the guard `if (schema.properties)`. -/
def kidsOf (s : JVal) : List (String × JVal) :=
  match jsRead s "properties" with
  | some pv => if truthy pv then jsEntries pv else []
  | none => []

/-- The `$ref` step (source lines 191–199), parameterised by the recursive
visit `recur` (which carries the *current* path: references do not extend the
path).  `own` and `wp` are the writes already produced by the node's own
default and its property subtrees; `dp` the diagnostics so far.  A truthy
non-string `$ref` is the JS `TypeError` on `.replace` (`TR.err`); an
unresolvable or falsy target logs `Reference not found` and moves on. -/
def refStep (recur : JVal → TR) (root s : JVal)
    (own wp : List (List String × JVal)) (dp : List String) : TR :=
  match jsRead s "$ref" with
  | some rv =>
      if truthy rv then
        match rv with
        | JVal.str r =>
            match resolveRef root r with
            | some t =>
                if truthy t then
                  trBind (recur t) fun wr dr => .ok (own ++ wp ++ wr) (dp ++ dr)
                else .ok (own ++ wp) (dp ++ ["Reference not found: " ++ r])
            | none => .ok (own ++ wp) (dp ++ ["Reference not found: " ++ r])
        | _ => .err
      else .ok (own ++ wp) dp
  | none => .ok (own ++ wp) dp

/-- The source's `traverse(schema, path, rootSchema)`, fuelled.  At each node:
record the node's own `default` (if present) at the current path, then visit
every entry of a truthy `properties` value with the key appended to the path,
then resolve a truthy `$ref` against `rootSchema.$defs` and visit the
resolved node at the *same* path.  Writes are ordered: own default, then
property subtrees in entry order, then the `$ref` subtree. -/
def traverseF : Nat → JVal → List String → JVal → TR
  | 0, _, _, _ => .out
  | n + 1, s, path, root =>
      if s = JVal.null then .err
      else
        trBind
          (tkFoldAux (fun kb => traverseF n kb.2 (path ++ [kb.1]) root) (kidsOf s) (.ok [] []))
          fun wp dp => refStep (fun t => traverseF n t path root) root s (ownWrites s path) wp dp

/-- The source's `extractDefaultsFromSchema(schema)` (fuelled): run the
traversal from the root with an empty path and replay its writes onto a fresh
`{}`. -/
def extractDefaultsFromSchema (fuel : Nat) (schema : JVal) : Option JVal :=
  match traverseF fuel schema [] schema with
  | .ok ws _ => some (applyWrites ws (JVal.obj []))
  | _ => none

/-! ## Paths

`isLead p q` holds when `p` is an initial segment of `q`; two paths
`diverges` when neither leads the other (they name disjoint subtrees). -/

/-- `isLead p q`: `p` is an initial segment of `q`. -/
def isLead : List String → List String → Bool
  | [], _ => true
  | _ :: _, [] => false
  | a :: as, b :: bs => if a = b then isLead as bs else false

/-- Two paths diverge when neither is an initial segment of the other. -/
def diverges (p q : List String) : Bool :=
  !(isLead p q) && !(isLead q p)

theorem isLead_refl (p : List String) : isLead p p = true := by
  induction p with
  | nil => rfl
  | cons a as ih => simp [isLead, ih]

theorem isLead_app (p t : List String) : isLead p (p ++ t) = true := by
  induction p with
  | nil => rfl
  | cons a as ih => simp [isLead, ih]

theorem isLead_trans {a b c : List String} (h1 : isLead a b = true)
    (h2 : isLead b c = true) : isLead a c = true := by
  induction a generalizing b c with
  | nil => rfl
  | cons x xs ih =>
      cases b with
      | nil => simp [isLead] at h1
      | cons y ys =>
          cases c with
          | nil => simp [isLead] at h2
          | cons z zs =>
              simp only [isLead] at h1 h2 ⊢
              by_cases hxy : x = y
              · subst hxy
                simp only [if_pos rfl] at h1
                by_cases hyz : x = z
                · subst hyz
                  simp only [if_pos rfl] at h2 ⊢
                  exact ih h1 h2
                · simp [if_neg hyz] at h2
              · simp [if_neg hxy] at h1

/-! ## Field-list and read/write lemmas -/

namespace JVal

theorem lookupField_setField_same (fs : List (String × JVal)) (k : String) (v : JVal) :
    lookupField (setField fs k v) k = some v := by
  induction fs with
  | nil => simp [setField, lookupField]
  | cons kv rest ih =>
      obtain ⟨k2, v2⟩ := kv
      by_cases h : k2 = k
      · simp [setField, h, lookupField]
      · simp [setField, h, lookupField, ih]

theorem lookupField_setField_other (fs : List (String × JVal)) (k k' : String) (v : JVal)
    (h : k' ≠ k) : lookupField (setField fs k v) k' = lookupField fs k' := by
  have hne : k ≠ k' := fun e => h e.symm
  induction fs with
  | nil => simp [setField, lookupField, hne]
  | cons kv rest ih =>
      obtain ⟨k2, v2⟩ := kv
      by_cases h2 : k2 = k
      · subst h2
        simp [setField, lookupField, hne]
      · simp only [setField, if_neg h2, lookupField]
        by_cases h3 : k2 = k'
        · simp [h3]
        · simp [h3, ih]

theorem lookupField_mem {fs : List (String × JVal)} {k : String} {v : JVal}
    (h : lookupField fs k = some v) : (k, v) ∈ fs := by
  induction fs with
  | nil => simp [lookupField] at h
  | cons kv rest ih =>
      obtain ⟨k2, v2⟩ := kv
      by_cases h2 : k2 = k
      · subst h2
        simp only [lookupField, if_pos rfl] at h
        rw [show v2 = v from Option.some.inj h]
        exact List.mem_cons_self _ _
      · simp only [lookupField, if_neg h2] at h
        exact List.mem_cons_of_mem _ (ih h)

theorem jsRead_mem {a : JVal} {k : String} {b : JVal} (h : jsRead a k = some b) :
    (k, b) ∈ jsEntries a :=
  lookupField_mem h

theorem jsEntries_falsy {a : JVal} (h : truthy a = false) : jsEntries a = [] := by
  cases a <;> simp_all [truthy, jsEntries]

/-- Reading through a fresh `setDefault` level sees exactly what the original
slot content exposed: a spread copy has the same own enumerable properties,
and a falsy slot exposed none to begin with. -/
theorem jsRead_freshLevel (o : Option JVal) (j : String) :
    jsRead (freshLevel o) j = match o with
      | some w => jsRead w j
      | none => none := by
  match o with
  | none => rfl
  | some w =>
      by_cases h : truthy w
      · simp [freshLevel, h, spreadObj, jsRead, jsEntries]
      · simp only [Bool.not_eq_true] at h
        show jsRead (freshLevel (some w)) j = jsRead w j
        simp only [freshLevel, h, Bool.false_eq_true, if_false]
        simp only [jsRead, jsEntries_falsy h]
        simp [jsEntries, lookupField]

theorem jsRead_jsSet_other {d : JVal} {k k' : String} {v : JVal} (h : k' ≠ k) :
    jsRead (jsSet d k v) k' = jsRead d k' := by
  cases d <;> simp [jsSet, jsRead, jsEntries, lookupField_setField_other _ _ _ _ h]

theorem jsRead_jsSet_same {d : JVal} (hd : isObjB d = true) (k : String) (v : JVal) :
    jsRead (jsSet d k v) k = some v := by
  cases d <;> simp_all [isObjB, jsSet, jsRead, jsEntries, lookupField_setField_same]

end JVal

theorem freshLevel_isObj (o : Option JVal) : isObjB (freshLevel o) = true := by
  match o with
  | none => rfl
  | some w =>
      by_cases h : truthy w
      · simp [freshLevel, h, spreadObj, isObjB]
      · simp [freshLevel, h, isObjB]

theorem setDefault_isObj {d : JVal} (hd : isObjB d = true) (p : List String) (v : JVal) :
    isObjB (setDefault d p v) = true := by
  match d with
  | JVal.obj fs =>
      match p with
      | [] => simp [setDefault, jsSet, isObjB]
      | [k] => simp [setDefault, jsSet, isObjB]
      | k :: k2 :: rest => simp [setDefault, jsSet, isObjB]
  | JVal.null | JVal.boolean _ | JVal.num _ | JVal.str _ | JVal.arr _ => simp [isObjB] at hd

/-- Frame property of `setDefault`: a write at path `p` leaves the document
unchanged at every path `q` diverging from `p` (neither an initial segment of
the other).  This is the sense in which sibling subtrees are never aliased or
mutated by a write. -/
theorem setDefault_frame (p : List String) (d v : JVal) (q : List String)
    (h : diverges p q = true) :
    getPath (setDefault d p v) q = getPath d q := by
  induction p generalizing d q with
  | nil => simp [diverges, isLead] at h
  | cons k rest ih =>
      cases q with
      | nil => simp [diverges, isLead] at h
      | cons k' qrest =>
          by_cases hk : k = k'
          · subst hk
            -- common head: the tails must themselves diverge
            have hdiv : diverges rest qrest = true := by
              simp only [diverges, isLead, if_pos rfl, Bool.and_eq_true,
                Bool.not_eq_true'] at h ⊢
              exact h
            cases rest with
            | nil =>
                -- p = [k]: tails diverge means qrest ≠ [] and [] leads qrest: impossible
                simp [diverges, isLead] at hdiv
            | cons k2 rest2 =>
                show getPath (jsSet d k (setDefault (freshLevel (jsRead d k)) (k2 :: rest2) v))
                      (k :: qrest) = getPath d (k :: qrest)
                match d with
                | JVal.null | JVal.boolean _ | JVal.num _ | JVal.str _ | JVal.arr _ =>
                    simp [jsSet]
                | JVal.obj fs =>
                    have hq : qrest ≠ [] := by
                      intro e
                      subst e
                      simp [diverges, isLead] at hdiv
                    simp only [getPath, jsRead_jsSet_same (d := JVal.obj fs) rfl]
                    rw [ih (freshLevel (jsRead (JVal.obj fs) k)) qrest hdiv]
                    match qrest, hq with
                    | j :: qq, _ =>
                        simp only [getPath, jsRead_freshLevel]
                        match jsRead (JVal.obj fs) k with
                        | some w => rfl
                        | none => rfl
          · -- distinct heads: the write does not touch the `k'` slot
            have hk' : k' ≠ k := fun e => hk e.symm
            cases rest with
            | nil =>
                simp only [setDefault, getPath, jsRead_jsSet_other hk']
            | cons k2 rest2 =>
                simp only [setDefault, getPath, jsRead_jsSet_other hk']

/-- Writing at a nonempty path makes the written value readable at exactly
that path. -/
theorem setDefault_get (p : List String) (d v : JVal) (hd : isObjB d = true)
    (hp : p ≠ []) : getPath (setDefault d p v) p = some v := by
  induction p generalizing d with
  | nil => exact absurd rfl hp
  | cons k rest ih =>
      match d, hd with
      | JVal.obj fs, _ =>
          cases rest with
          | nil =>
              simp [setDefault, getPath, jsRead_jsSet_same (d := JVal.obj fs) rfl]
          | cons k2 rest2 =>
              show getPath (jsSet (JVal.obj fs) k
                    (setDefault (freshLevel (jsRead (JVal.obj fs) k)) (k2 :: rest2) v))
                  (k :: k2 :: rest2) = some v
              simp only [getPath, jsRead_jsSet_same (d := JVal.obj fs) rfl]
              exact ih _ (freshLevel_isObj _) (by simp)

theorem diverges_symm {p q : List String} (h : diverges p q = true) :
    diverges q p = true := by
  simp only [diverges, Bool.and_eq_true] at h ⊢
  exact ⟨h.2, h.1⟩

theorem getPath_empty_obj {q : List String} (hq : q ≠ []) :
    getPath (JVal.obj []) q = none := by
  match q, hq with
  | j :: qq, _ => simp [getPath, jsRead, jsEntries, lookupField]

theorem applyWrites_isObj {d : JVal} (hd : isObjB d = true)
    (ws : List (List String × JVal)) : isObjB (applyWrites ws d) = true := by
  induction ws generalizing d with
  | nil => exact hd
  | cons pv rest ih => exact ih (setDefault_isObj hd pv.1 pv.2)

/-- Frame property of a write sequence: if every write path diverges from
`q`, the document is unchanged at `q`. -/
theorem applyWrites_frame {ws : List (List String × JVal)} {q : List String} (d : JVal)
    (h : ∀ pv ∈ ws, diverges pv.1 q = true) :
    getPath (applyWrites ws d) q = getPath d q := by
  induction ws generalizing d with
  | nil => rfl
  | cons pv rest ih =>
      show getPath (applyWrites rest (setDefault d pv.1 pv.2)) q = getPath d q
      rw [ih _ fun b hb => h b (List.mem_cons_of_mem _ hb)]
      exact setDefault_frame pv.1 d pv.2 q (h pv (List.mem_cons_self _ _))

/-- Completeness of a pairwise-diverging write sequence: every write remains
readable at its own (nonempty) path after all writes are applied. -/
theorem applyWrites_complete {ws : List (List String × JVal)} {d : JVal}
    (hd : isObjB d = true)
    (hpw : List.Pairwise (fun a b => diverges a.1 b.1 = true) ws) :
    ∀ pv ∈ ws, pv.1 ≠ [] → getPath (applyWrites ws d) pv.1 = some pv.2 := by
  induction ws generalizing d with
  | nil => intro pv hpv; simp at hpv
  | cons hd0 rest ih =>
      intro pv hpv hne
      rcases List.mem_cons.mp hpv with hpv | hpv
      · subst hpv
        show getPath (applyWrites rest (setDefault d pv.1 pv.2)) pv.1 = some pv.2
        rw [applyWrites_frame _ fun b hb =>
          diverges_symm ((List.pairwise_cons.mp hpw).1 b hb)]
        exact setDefault_get pv.1 d pv.2 hd hne
      · exact ih (setDefault_isObj hd hd0.1 hd0.2) (List.pairwise_cons.mp hpw).2 pv hpv hne

/-! ## Traversal-result lemmas -/

theorem tkFoldAux_ne_out {f : String × JVal → TR} {l : List (String × JVal)} {acc : TR}
    (hacc : acc ≠ TR.out) (hf : ∀ kb ∈ l, f kb ≠ TR.out) :
    tkFoldAux f l acc ≠ TR.out := by
  induction l generalizing acc with
  | nil => exact hacc
  | cons kb rest ih =>
      refine ih ?_ fun b hb => hf b (List.mem_cons_of_mem _ hb)
      match acc, hacc with
      | TR.err, _ => intro h; exact TR.noConfusion h
      | TR.ok w1 d1, _ =>
          show trBind (f kb) _ ≠ TR.out
          match hkb : f kb with
          | TR.out => exact absurd hkb (hf kb (List.mem_cons_self _ _))
          | TR.err => intro h; exact TR.noConfusion h
          | TR.ok w2 d2 => intro h; exact TR.noConfusion h

/-- Transfer of a per-write property through the property-entry fold: if the
accumulator's writes and every child's writes satisfy `R`, so do the folded
writes. -/
theorem tkFoldAux_writes {f : String × JVal → TR} {l : List (String × JVal)} {acc : TR}
    {ws : List (List String × JVal)} {ds : List String} (R : List String × JVal → Prop)
    (hacc : ∀ w d, acc = TR.ok w d → ∀ pv ∈ w, R pv)
    (hf : ∀ kb ∈ l, ∀ w d, f kb = TR.ok w d → ∀ pv ∈ w, R pv)
    (h : tkFoldAux f l acc = TR.ok ws ds) : ∀ pv ∈ ws, R pv := by
  induction l generalizing acc with
  | nil => exact hacc ws ds h
  | cons kb rest ih =>
      refine ih ?_ (fun b hb => hf b (List.mem_cons_of_mem _ hb)) h
      intro w d hacc' pv hpv
      match acc, hacc' with
      | TR.ok w1 d1, hacc' =>
          match hkb : f kb, hacc' with
          | TR.ok w2 d2, hacc' =>
              simp only [trBind, hkb] at hacc'
              obtain ⟨hw, _⟩ := TR.ok.inj hacc'
              subst hw
              rcases List.mem_append.mp hpv with hm | hm
              · exact hacc w1 d1 rfl pv hm
              · exact hf kb (List.mem_cons_self _ _) w2 d2 hkb pv hm

/-- Writes produced by the `$ref` step are the node's own write, the property
writes, or writes of the recursively visited reference target. -/
theorem refStep_writes {recur : JVal → TR} {root s : JVal}
    {own wp : List (List String × JVal)} {dp : List String}
    {ws : List (List String × JVal)} {ds : List String} (R : List String × JVal → Prop)
    (hown : ∀ pv ∈ own, R pv) (hwp : ∀ pv ∈ wp, R pv)
    (hrec : ∀ t w d, recur t = TR.ok w d → ∀ pv ∈ w, R pv)
    (h : refStep recur root s own wp dp = TR.ok ws ds) : ∀ pv ∈ ws, R pv := by
  intro pv hpv
  unfold refStep at h
  have happ : ws = own ++ wp → R pv := by
    intro he
    subst he
    rcases List.mem_append.mp hpv with hm | hm
    · exact hown pv hm
    · exact hwp pv hm
  split at h
  · -- jsRead s "$ref" = some rv
    split at h
    · -- truthy rv
      split at h
      · -- rv = str r
        rename_i r
        split at h
        · -- resolveRef root r = some t
          rename_i t hres
          split at h
          · -- truthy t
            match hrec2 : recur t with
            | TR.out => rw [hrec2] at h; exact TR.noConfusion h
            | TR.err => rw [hrec2] at h; exact TR.noConfusion h
            | TR.ok wr dr =>
                rw [hrec2] at h
                simp only [trBind] at h
                obtain ⟨hw, _⟩ := TR.ok.inj h
                subst hw
                rcases List.mem_append.mp hpv with hm | hm
                · rcases List.mem_append.mp hm with hm2 | hm2
                  · exact hown pv hm2
                  · exact hwp pv hm2
                · exact hrec t wr dr hrec2 pv hm
          · exact happ (TR.ok.inj h).1.symm
        · exact happ (TR.ok.inj h).1.symm
      · -- truthy non-string `$ref`: the step is `err`, not `ok`
        exact TR.noConfusion h
    · exact happ (TR.ok.inj h).1.symm
  · exact happ (TR.ok.inj h).1.symm

theorem ownWrites_mem {s : JVal} {path : List String} {pv : List String × JVal}
    (h : pv ∈ ownWrites s path) : pv.1 = path := by
  unfold ownWrites at h
  match href : jsRead s "default" with
  | none => rw [href] at h; simp at h
  | some d =>
      rw [href] at h
      rcases List.mem_singleton.mp h with rfl
      rfl

/-- Every write produced by a traversal has the entry path as an initial
segment: property steps extend the path and `$ref` steps keep it. -/
theorem traverseF_writes_extend :
    ∀ (n : Nat) (s : JVal) (path : List String) (root : JVal)
      (ws : List (List String × JVal)) (ds : List String),
      traverseF n s path root = TR.ok ws ds → ∀ pv ∈ ws, isLead path pv.1 = true := by
  intro n
  induction n with
  | zero => intro s path root ws ds h; exact TR.noConfusion h
  | succ n ih =>
      intro s path root ws ds h pv hpv
      by_cases hnull : s = JVal.null
      · rw [traverseF, if_pos hnull] at h
        exact TR.noConfusion h
      · rw [traverseF, if_neg hnull] at h
        match hfold : tkFoldAux (fun kb => traverseF n kb.2 (path ++ [kb.1]) root)
            (kidsOf s) (TR.ok [] []) with
        | TR.out => rw [hfold] at h; exact TR.noConfusion h
        | TR.err => rw [hfold] at h; exact TR.noConfusion h
        | TR.ok wp dp =>
            rw [hfold] at h
            simp only [trBind] at h
            refine refStep_writes (fun pv => isLead path pv.1 = true)
              (fun b hb => by
                show isLead path b.1 = true
                rw [ownWrites_mem hb]
                exact isLead_refl path)
              ?_ (fun t w d hrec b hb => ih t path root w d hrec b hb) h pv hpv
            refine tkFoldAux_writes (fun pv => isLead path pv.1 = true)
              (fun w d hacc b hb => by
                obtain ⟨hw, _⟩ := TR.ok.inj hacc
                rw [← hw] at hb
                simp at hb)
              (fun kb hkb w d hcall b hb =>
                isLead_trans (isLead_app path [kb.1]) (ih kb.2 (path ++ [kb.1]) root w d hcall b hb))
              hfold

/-! ## Termination of the traversal

`$ref` resolution jumps into the `$defs` table, so the recursion in
`traverse` is not structural.  `refsIn` over-approximates the reference
strings a subtree can give rise to; `NoCycle` asks for a rank function on
`$defs` keys that strictly decreases along references, the formal reading of
"the `$ref` references form no cycle". -/

mutual

/-- All `$ref` strings occurring in a subtree (the values of `"$ref"` fields,
collected recursively through object fields and array elements).  String
elements sitting directly in arrays are also collected: JavaScript enumerates
array elements under stringified-index keys, so a string element is the one
other shape a (degenerate) `$ref`-keyed read could produce. -/
def refsIn : JVal → List String
  | JVal.obj fs => refsInO fs
  | JVal.arr xs => refsInA xs
  | _ => []

/-- `refsIn` over array elements. -/
def refsInA : List JVal → List String
  | [] => []
  | x :: rest =>
      (match x with
       | JVal.str r => [r]
       | _ => []) ++ refsIn x ++ refsInA rest

/-- `refsIn` over object fields. -/
def refsInO : List (String × JVal) → List String
  | [] => []
  | (k, v) :: rest =>
      (if k = "$ref" then
        match v with
        | JVal.str r => [r]
        | _ => []
       else []) ++ refsIn v ++ refsInO rest

end

/-- The first segment of a reference's resolution path. -/
def refHead (r : String) : String :=
  match refSegs r with
  | s1 :: _ => s1
  | [] => ""

/-- The `$defs` table of the root schema (`JVal.null`, with no entries, when
absent). -/
def defsTable (root : JVal) : JVal :=
  match jsRead root "$defs" with
  | some dv => dv
  | none => JVal.null

/-- "No `$ref` cycles": some rank on keys of the `$defs` table strictly
decreases from a table entry to every reference reachable inside it. -/
def NoCycle (root : JVal) : Prop :=
  ∃ rank : String → Nat,
    ∀ kb ∈ jsEntries (defsTable root), ∀ r ∈ refsIn kb.2, rank (refHead r) < rank kb.1

theorem sizeOf_pos (a : JVal) : 0 < sizeOf a := by
  cases a <;> simp

theorem jsEntries_size {a : JVal} {k : String} {b : JVal} (h : (k, b) ∈ jsEntries a) :
    sizeOf b < sizeOf a := by
  match a with
  | JVal.null | JVal.boolean _ | JVal.num _ | JVal.str _ => simp [jsEntries] at h
  | JVal.obj fs =>
      simp only [jsEntries] at h
      have h1 := List.sizeOf_lt_of_mem h
      have h2 : sizeOf (k, b) = 1 + sizeOf k + sizeOf b := rfl
      simp only [JVal.obj.sizeOf_spec]
      omega
  | JVal.arr xs =>
      simp only [jsEntries] at h
      obtain ⟨p, hp, he⟩ := List.mem_map.mp h
      obtain ⟨-, hmem⟩ := List.of_mem_zip hp
      have hb : p.2 = b := congrArg Prod.snd he
      subst hb
      have h1 := List.sizeOf_lt_of_mem hmem
      simp only [JVal.arr.sizeOf_spec]
      omega

theorem jsRead_size {a : JVal} {k : String} {b : JVal} (h : jsRead a k = some b) :
    sizeOf b < sizeOf a :=
  jsEntries_size (jsRead_mem h)

theorem refsInO_of_mem {fs : List (String × JVal)} {k : String} {v : JVal}
    (h : (k, v) ∈ fs) : ∀ r ∈ refsIn v, r ∈ refsInO fs := by
  induction fs with
  | nil => simp at h
  | cons kv rest ih =>
      intro r hr
      rcases List.mem_cons.mp h with he | hm
      · obtain ⟨k2, v2⟩ := kv
        injection he with he1 he2
        subst he2
        simp only [refsInO, List.mem_append]
        exact Or.inl (Or.inr hr)
      · obtain ⟨k2, v2⟩ := kv
        simp only [refsInO, List.mem_append]
        exact Or.inr (ih hm r hr)

theorem refsInA_of_mem {xs : List JVal} {v : JVal} (h : v ∈ xs) :
    ∀ r ∈ refsIn v, r ∈ refsInA xs := by
  induction xs with
  | nil => simp at h
  | cons x rest ih =>
      intro r hr
      rcases List.mem_cons.mp h with he | hm
      · subst he
        simp only [refsInA, List.mem_append]
        exact Or.inl (Or.inr hr)
      · simp only [refsInA, List.mem_append]
        exact Or.inr (ih hm r hr)

theorem refsIn_entries {a : JVal} {k : String} {b : JVal} (h : (k, b) ∈ jsEntries a) :
    ∀ r ∈ refsIn b, r ∈ refsIn a := by
  match a with
  | JVal.null | JVal.boolean _ | JVal.num _ | JVal.str _ => simp [jsEntries] at h
  | JVal.obj fs =>
      simp only [jsEntries] at h
      exact refsInO_of_mem h
  | JVal.arr xs =>
      simp only [jsEntries] at h
      obtain ⟨p, hp, he⟩ := List.mem_map.mp h
      obtain ⟨-, hmem⟩ := List.of_mem_zip hp
      have hb : p.2 = b := congrArg Prod.snd he
      rw [← hb]
      exact refsInA_of_mem hmem

theorem refsIn_read {a : JVal} {k : String} {b : JVal} (h : jsRead a k = some b) :
    ∀ r ∈ refsIn b, r ∈ refsIn a :=
  refsIn_entries (jsRead_mem h)

theorem refsInO_of_ref_mem {fs : List (String × JVal)} {r : String}
    (h : ("$ref", JVal.str r) ∈ fs) : r ∈ refsInO fs := by
  induction fs with
  | nil => simp at h
  | cons kv rest ih =>
      rcases List.mem_cons.mp h with he | hm
      · obtain ⟨k2, v2⟩ := kv
        injection he with he1 he2
        subst he1
        subst he2
        simp [refsInO]
      · obtain ⟨k2, v2⟩ := kv
        simp only [refsInO, List.mem_append]
        exact Or.inr (ih hm)

theorem refsInA_of_str_mem {xs : List JVal} {r : String} (h : JVal.str r ∈ xs) :
    r ∈ refsInA xs := by
  induction xs with
  | nil => simp at h
  | cons x rest ih =>
      rcases List.mem_cons.mp h with he | hm
      · rw [← he]
        simp [refsInA]
      · simp only [refsInA, List.mem_append]
        exact Or.inr (ih hm)

/-- A node's `$ref` string is among its collected references. -/
theorem refsIn_self {s : JVal} {r : String} (h : jsRead s "$ref" = some (JVal.str r)) :
    r ∈ refsIn s := by
  have hm := jsRead_mem h
  match s with
  | JVal.null | JVal.boolean _ | JVal.num _ | JVal.str _ => simp [jsEntries] at hm
  | JVal.obj fs =>
      simp only [jsEntries] at hm
      exact refsInO_of_ref_mem hm
  | JVal.arr xs =>
      simp only [jsEntries] at hm
      obtain ⟨p, hp, he⟩ := List.mem_map.mp hm
      obtain ⟨-, hmem⟩ := List.of_mem_zip hp
      have hb : p.2 = JVal.str r := congrArg Prod.snd he
      rw [hb] at hmem
      exact refsInA_of_str_mem hmem

theorem foldl_read_none (segs : List String) :
    segs.foldl (fun acc k => acc.bind fun x => jsRead x k) none = none := by
  induction segs with
  | nil => rfl
  | cons k rest ih => simpa [Option.bind] using ih

theorem resolve_chain (segs : List String) :
    ∀ a t : JVal, segs.foldl (fun acc k => acc.bind fun x => jsRead x k) (some a) = some t →
      (∀ r ∈ refsIn t, r ∈ refsIn a) ∧ sizeOf t ≤ sizeOf a := by
  induction segs with
  | nil =>
      intro a t h
      rw [show t = a from (Option.some.inj h).symm]
      exact ⟨fun r hr => hr, Nat.le_refl _⟩
  | cons k rest ih =>
      intro a t h
      simp only [List.foldl_cons] at h
      match hk : (some a).bind fun x => jsRead x k with
      | none => rw [hk, foldl_read_none] at h; exact Option.noConfusion h
      | some b =>
          rw [hk] at h
          have hrb : jsRead a k = some b := by simpa [Option.bind] using hk
          obtain ⟨h1, h2⟩ := ih b t h
          exact ⟨fun r hr => refsIn_read hrb r (h1 r hr),
            Nat.le_trans h2 (Nat.le_of_lt (jsRead_size hrb))⟩

theorem splitSlash_ne_nil (acc cs) : splitSlash acc cs ≠ [] := by
  induction cs generalizing acc with
  | nil => simp [splitSlash]
  | cons c rest ih =>
      by_cases hc : c = '/'
      · simp [splitSlash, hc]
      · simpa [splitSlash, hc] using ih (c :: acc)

/-- A resolved reference comes out of some entry of the `$defs` table, keyed
by the reference's first path segment, and is no larger (reference-wise or
size-wise) than that entry. -/
theorem resolveRef_some {root : JVal} {r : String} {t : JVal}
    (h : resolveRef root r = some t) :
    ∃ dv b1, jsRead root "$defs" = some dv ∧ jsRead dv (refHead r) = some b1 ∧
      (∀ x ∈ refsIn t, x ∈ refsIn b1) ∧ sizeOf t ≤ sizeOf b1 := by
  unfold resolveRef at h
  match hsegs : refSegs r with
  | [] => exact absurd hsegs (splitSlash_ne_nil _ _)
  | s1 :: rest =>
      rw [hsegs] at h
      simp only [List.foldl_cons] at h
      have hhead : refHead r = s1 := by unfold refHead; rw [hsegs]
      match hdv : jsRead root "$defs" with
      | none =>
          rw [hdv, Option.none_bind, foldl_read_none] at h
          exact Option.noConfusion h
      | some dv =>
          rw [hdv] at h
          match hb1 : (some dv).bind fun x => jsRead x s1 with
          | none => rw [hb1, foldl_read_none] at h; exact Option.noConfusion h
          | some b1 =>
              rw [hb1] at h
              have hrb : jsRead dv s1 = some b1 := by simpa [Option.bind] using hb1
              obtain ⟨h1, h2⟩ := resolve_chain rest b1 t h
              exact ⟨dv, b1, rfl, by rw [hhead]; exact hrb, h1, h2⟩

theorem kidsOf_mem {s : JVal} {kb : String × JVal} (h : kb ∈ kidsOf s) :
    ∃ pv, jsRead s "properties" = some pv ∧ kb ∈ jsEntries pv := by
  match hp : jsRead s "properties" with
  | none =>
      have he : kidsOf s = [] := by unfold kidsOf; rw [hp]
      rw [he] at h
      simp at h
  | some pv =>
      have he : kidsOf s = if truthy pv then jsEntries pv else [] := by
        unfold kidsOf; rw [hp]
      rw [he] at h
      by_cases ht : truthy pv
      · rw [if_pos ht] at h; exact ⟨pv, rfl, h⟩
      · rw [if_neg ht] at h; simp at h

theorem trBind_ne_out {a : TR} {f : List (List String × JVal) → List String → TR}
    (ha : a ≠ TR.out) (hf : ∀ w d, f w d ≠ TR.out) : trBind a f ≠ TR.out := by
  match a, ha with
  | TR.err, _ => intro h; exact TR.noConfusion h
  | TR.ok w d, _ => exact hf w d

theorem refStep_ne_out {recur : JVal → TR} {root s : JVal}
    {own wp : List (List String × JVal)} {dp : List String}
    (h : ∀ r t, jsRead s "$ref" = some (JVal.str r) → resolveRef root r = some t →
      truthy t = true → recur t ≠ TR.out) :
    refStep recur root s own wp dp ≠ TR.out := by
  unfold refStep
  split
  · rename_i rv href
    split
    · rename_i htr
      split
      · rename_i r
        split
        · rename_i t hres
          split
          · rename_i htt
            exact trBind_ne_out (h r t href hres htt) fun w d e => TR.noConfusion e
          · intro e; exact TR.noConfusion e
        · intro e; exact TR.noConfusion e
      · intro e; exact TR.noConfusion e
    · intro e; exact TR.noConfusion e
  · intro e; exact TR.noConfusion e

/-- Fuel sufficiency: under a rank function witnessing acyclicity, fuel
`sizeOf s + rank-budget · (sizeOf root + 1)` completes the traversal.  The
rank budget bounds the rank of every reference reachable from the current
node; each `$ref` jump strictly lowers it, and property steps strictly lower
the structural size. -/
theorem traverseF_enough (root : JVal) (rank : String → Nat)
    (hrank : ∀ kb ∈ jsEntries (defsTable root), ∀ r ∈ refsIn kb.2,
      rank (refHead r) < rank kb.1) :
    ∀ n : Nat, ∀ rcur : Nat, ∀ s : JVal, ∀ path : List String,
      (∀ r ∈ refsIn s, rank (refHead r) < rcur) →
      sizeOf s + rcur * (sizeOf root + 1) ≤ n →
      traverseF n s path root ≠ TR.out := by
  intro n
  induction n using Nat.strong_induction_on with
  | _ n ih =>
    intro rcur s path hinv hsz
    match n with
    | 0 =>
        have := sizeOf_pos s
        omega
    | m + 1 =>
        by_cases hnull : s = JVal.null
        · rw [traverseF, if_pos hnull]
          intro e; exact TR.noConfusion e
        · rw [traverseF, if_neg hnull]
          refine trBind_ne_out (tkFoldAux_ne_out (fun e => TR.noConfusion e) ?_) ?_
          · -- property children have enough fuel
            intro kb hkb
            obtain ⟨pv, hpv, hent⟩ := kidsOf_mem hkb
            obtain ⟨k, b⟩ := kb
            have hs1 : sizeOf b < sizeOf pv := jsEntries_size hent
            have hs2 : sizeOf pv < sizeOf s := jsRead_size hpv
            refine ih m (Nat.lt_succ_self m) rcur b (path ++ [k])
              (fun r hr => hinv r (refsIn_read hpv r (refsIn_entries hent r hr))) ?_
            omega
          · -- the `$ref` target has enough fuel
            intro wp dp
            refine refStep_ne_out fun r t href hres htt => ?_
            have hrt : rank (refHead r) < rcur := hinv r (refsIn_self href)
            obtain ⟨dv, b1, hdv, hb1, hsub, hszt⟩ := resolveRef_some hres
            have hdt : defsTable root = dv := by unfold defsTable; rw [hdv]
            have hmem : (refHead r, b1) ∈ jsEntries (defsTable root) := by
              rw [hdt]; exact jsRead_mem hb1
            have hszb : sizeOf b1 < sizeOf dv := jsRead_size hb1
            have hszd : sizeOf dv < sizeOf root := jsRead_size hdv
            refine ih m (Nat.lt_succ_self m) (rank (refHead r)) t path
              (fun x hx => hrank _ hmem x (hsub x hx)) ?_
            have hx : (rank (refHead r) + 1) * (sizeOf root + 1) =
                rank (refHead r) * (sizeOf root + 1) + (sizeOf root + 1) :=
              Nat.succ_mul _ _
            have hy : (rank (refHead r) + 1) * (sizeOf root + 1) ≤ rcur * (sizeOf root + 1) :=
              Nat.mul_le_mul_right _ hrt
            have hps := sizeOf_pos s
            omega

/-! ## The spec-side reading of the extraction algorithm

`declaredF` is a second traversal following the words of §4.1 of the spec,
used to compare the implementation against the specified "paths at which a
default is declared (directly or via a resolvable reference)".  `Sane`
carves out the schemas on which the spec's reading is meaningful: no `null`
nodes (the implementation throws on those), `properties` values that are
maps, and `$ref` strings of the canonical `#/$defs/<name>` form. -/

/-- The `<name>` of a canonical `#/$defs/<name>` reference (`name` nonempty
and slash-free), `none` for any other string. -/
def refNameOf (r : String) : Option String :=
  match stripLead defsMarker.data r.data with
  | some rest =>
      if rest.isEmpty then none
      else if rest.contains '/' then none
      else some (String.mk rest)
  | none => none

/-- A sane `properties` slot: absent, falsy, or an object. -/
def propsOK : Option JVal → Bool
  | some pv => !(truthy pv) || isObjB pv
  | none => true

/-- A sane `$ref` slot: absent, falsy, or a canonical `#/$defs/<name>`
string. -/
def refOK : Option JVal → Bool
  | some rv =>
      !(truthy rv) ||
      (match rv with
       | JVal.str r => (refNameOf r).isSome
       | _ => false)
  | none => true

/-- `false` exactly on `null`. -/
def notNullB : JVal → Bool
  | JVal.null => false
  | _ => true

/-- Local well-formedness of a schema node: not `null`; a truthy
`properties` value is an object; a truthy `$ref` is a canonical
`#/$defs/<name>` string. -/
def localSane (s : JVal) : Bool :=
  notNullB s && propsOK (jsRead s "properties") && refOK (jsRead s "$ref")

/-- `localSane` at every node reachable through own enumerable properties,
checked to depth `n`. -/
def saneDeep : Nat → JVal → Bool
  | 0, _ => false
  | n + 1, s => localSane s && (jsEntries s).all fun kv => saneDeep n kv.2

mutual

/-- Executable structural size (the auto-generated `sizeOf` of the nested
inductive carries no executable code); used only as a sufficient recursion
depth for `Sane`. -/
def sizeJ : JVal → Nat
  | JVal.obj fs => 1 + sizeJO fs
  | JVal.arr xs => 1 + sizeJA xs
  | _ => 1

/-- `sizeJ` over array elements. -/
def sizeJA : List JVal → Nat
  | [] => 0
  | x :: rest => 1 + sizeJ x + sizeJA rest

/-- `sizeJ` over object fields. -/
def sizeJO : List (String × JVal) → Nat
  | [] => 0
  | (_, v) :: rest => 1 + sizeJ v + sizeJO rest

end

/-- Well-formedness of a schema tree: every reachable node is locally sane
(`sizeJ root` bounds the entry-descendant depth). -/
def Sane (root : JVal) : Bool :=
  saneDeep (sizeJ root) root

/-- Arbitrary-depth well-formedness, the invariant carried through the
traversal. -/
def Deeply (s : JVal) : Prop :=
  ∃ n, saneDeep n s = true

theorem Deeply_localSane {s : JVal} (h : Deeply s) : localSane s = true := by
  obtain ⟨n, hn⟩ := h
  match n with
  | 0 => exact absurd hn (by simp [saneDeep])
  | m + 1 => exact (Bool.and_eq_true .. ▸ hn).1

theorem Deeply_entries {s : JVal} (h : Deeply s) {kv : String × JVal}
    (hkv : kv ∈ jsEntries s) : Deeply kv.2 := by
  obtain ⟨n, hn⟩ := h
  match n with
  | 0 => exact absurd hn (by simp [saneDeep])
  | m + 1 =>
      refine ⟨m, ?_⟩
      have := (Bool.and_eq_true .. ▸ hn).2
      exact List.all_eq_true.mp this kv hkv

theorem Deeply_read {a b : JVal} {k : String} (ha : Deeply a) (h : jsRead a k = some b) :
    Deeply b :=
  Deeply_entries ha (jsRead_mem h)

theorem Sane_Deeply {root : JVal} (h : Sane root = true) : Deeply root :=
  ⟨sizeJ root, h⟩

/-- Spec-side property step: "if the node has a `properties` map, recurse
into each property". -/
def specKidsOf (s : JVal) : List (String × JVal) :=
  match jsRead s "properties" with
  | some pv =>
      match pv with
      | JVal.obj fs => fs
      | _ => []
  | none => []

/-- Modelled from the spec (§4.1): "if the node has a schema reference
(`$ref`) pointing into a `$defs` table at the schema root, resolve the
reference and recurse into the resolved node using the current path; if the
reference cannot be resolved, skip that subtree and emit a diagnostic".  The
diagnostic text follows the implementation (the spec mandates only that one
is emitted); a non-string `$ref` is not a schema reference and is skipped. -/
def specRefStep (recur : JVal → TR) (root s : JVal)
    (own wp : List (List String × JVal)) (dp : List String) : TR :=
  match jsRead s "$ref" with
  | some rv =>
      if truthy rv then
        match rv with
        | JVal.str r =>
            match refNameOf r with
            | some name =>
                match (jsRead root "$defs").bind fun dv => jsRead dv name with
                | some t =>
                    if truthy t then
                      trBind (recur t) fun wr dr => .ok (own ++ wp ++ wr) (dp ++ dr)
                    else .ok (own ++ wp) (dp ++ ["Reference not found: " ++ r])
                | none => .ok (own ++ wp) (dp ++ ["Reference not found: " ++ r])
            | none => .ok (own ++ wp) (dp ++ ["Reference not found: " ++ r])
        | _ => .ok (own ++ wp) dp
      else .ok (own ++ wp) dp
  | none => .ok (own ++ wp) dp

/-- Modelled from the spec (§4.1, default-extraction algorithm): traverse the
schema tree depth-first; record a declared `default` at the node's current
path; recurse into each property, extending the path by the property key;
resolve `$ref` against the root's `$defs` table and recurse at the same
path.  Fuelled like `traverseF`; produces the declared `(path, value)` pairs
in traversal order. -/
def declaredF : Nat → JVal → List String → JVal → TR
  | 0, _, _, _ => .out
  | n + 1, s, path, root =>
      trBind
        (tkFoldAux (fun kb => declaredF n kb.2 (path ++ [kb.1]) root) (specKidsOf s) (.ok [] []))
        fun wp dp => specRefStep (fun t => declaredF n t path root) root s (ownWrites s path) wp dp

/-! ## The implementation agrees with the spec's reading on sane schemas -/

theorem tkFoldAux_congr {f g : String × JVal → TR} {l : List (String × JVal)}
    (h : ∀ kb ∈ l, f kb = g kb) : ∀ acc, tkFoldAux f l acc = tkFoldAux g l acc := by
  induction l with
  | nil => intro acc; rfl
  | cons kb rest ih =>
      intro acc
      show tkFoldAux f rest _ = tkFoldAux g rest _
      rw [h kb (List.mem_cons_self _ _)]
      exact ih (fun b hb => h b (List.mem_cons_of_mem _ hb)) _

theorem splitSlash_no_slash {cs : List Char} (h : ∀ c ∈ cs, c ≠ '/') :
    ∀ acc, splitSlash acc cs = [String.mk (acc.reverse ++ cs)] := by
  induction cs with
  | nil => intro acc; simp [splitSlash]
  | cons c rest ih =>
      intro acc
      have hc : ¬(c = '/') := h c (List.mem_cons_self _ _)
      rw [splitSlash, if_neg hc, ih (fun x hx => h x (List.mem_cons_of_mem _ hx))]
      simp

theorem refSegs_of_name {r name : String} (h : refNameOf r = some name) :
    refSegs r = [name] := by
  unfold refNameOf at h
  match hstrip : stripLead defsMarker.data r.data with
  | none =>
      simp only [hstrip] at h
      exact Option.noConfusion h
  | some rest =>
      simp only [hstrip] at h
      by_cases he : rest.isEmpty
      · rw [if_pos he] at h; exact Option.noConfusion h
      · rw [if_neg he] at h
        by_cases hc : rest.contains '/'
        · rw [if_pos hc] at h; exact Option.noConfusion h
        · rw [if_neg hc] at h
          have hname : String.mk rest = name := Option.some.inj h
          have hnos : ∀ c ∈ rest, c ≠ '/' := by
            intro c hcm he2
            subst he2
            exact hc (List.elem_iff.mpr hcm)
          unfold refSegs stripDefsMarker
          simp only [hstrip]
          show splitSlash [] (String.mk rest).data = [name]
          rw [show (String.mk rest).data = rest from rfl, splitSlash_no_slash hnos []]
          simp [hname]

theorem resolveRef_of_name {root : JVal} {r name : String} (h : refNameOf r = some name) :
    resolveRef root r = (jsRead root "$defs").bind fun dv => jsRead dv name := by
  unfold resolveRef
  rw [refSegs_of_name h]
  simp [List.foldl]

theorem localSane_split {s : JVal} (h : localSane s = true) :
    notNullB s = true ∧ propsOK (jsRead s "properties") = true ∧
      refOK (jsRead s "$ref") = true := by
  unfold localSane at h
  have h1 := (Bool.and_eq_true .. ▸ h).1
  have h2 := (Bool.and_eq_true .. ▸ h).2
  exact ⟨(Bool.and_eq_true .. ▸ h1).1, (Bool.and_eq_true .. ▸ h1).2, h2⟩

theorem kidsOf_eq_spec {s : JVal} (h : localSane s = true) : kidsOf s = specKidsOf s := by
  have hp := (localSane_split h).2.1
  unfold kidsOf specKidsOf
  match hr : jsRead s "properties" with
  | none => simp only [hr]
  | some pv =>
      rw [hr] at hp
      simp only [propsOK] at hp
      simp only [hr]
      by_cases ht : truthy pv
      · have hobj : isObjB pv = true := by
          rcases Bool.or_eq_true .. ▸ hp with h1 | h1
          · rw [ht] at h1; exact absurd h1 (by simp)
          · exact h1
        match pv, hobj with
        | JVal.obj fs, _ => rw [if_pos ht]; rfl
      · rw [if_neg ht]
        match pv, ht with
        | JVal.null, _ => rfl
        | JVal.boolean _, _ => rfl
        | JVal.num _, _ => rfl
        | JVal.str _, _ => rfl

/-- What `localSane` says about a truthy `$ref` value: it is a canonical
reference string. -/
theorem localSane_ref {s : JVal} {rv : JVal} (h : localSane s = true)
    (href : jsRead s "$ref" = some rv) (ht : truthy rv = true) :
    ∃ r name, rv = JVal.str r ∧ refNameOf r = some name := by
  have hr := (localSane_split h).2.2
  rw [href] at hr
  simp only [refOK] at hr
  rcases Bool.or_eq_true .. ▸ hr with h1 | h1
  · rw [ht] at h1; exact absurd h1 (by simp)
  · match rv, ht, h1 with
    | JVal.str r, ht, h1 =>
        have h2 : (refNameOf r).isSome = true := h1
        match hn : refNameOf r with
        | some name => exact ⟨r, name, rfl, hn⟩
        | none => rw [hn] at h2; exact absurd h2 (by simp [Option.isSome])

/-- On sane schemas the implementation's traversal coincides with the spec's
reading, fuel for fuel: same writes, same diagnostics, same fuel use. -/
theorem traverse_eq_declared (root : JVal) (hroot : Deeply root) :
    ∀ n : Nat, ∀ s : JVal, ∀ path : List String, Deeply s →
      traverseF n s path root = declaredF n s path root := by
  intro n
  induction n with
  | zero => intro s path hs; rfl
  | succ n ih =>
      intro s path hs
      have hls := Deeply_localSane hs
      have hnn : ¬(s = JVal.null) := by
        intro e
        subst e
        simp [localSane, notNullB] at hls
      rw [traverseF, declaredF, if_neg hnn]
      have hkids : kidsOf s = specKidsOf s := kidsOf_eq_spec hls
      have hfold : tkFoldAux (fun kb => traverseF n kb.2 (path ++ [kb.1]) root)
            (specKidsOf s) (.ok [] []) =
          tkFoldAux (fun kb => declaredF n kb.2 (path ++ [kb.1]) root)
            (specKidsOf s) (.ok [] []) := by
        refine tkFoldAux_congr (fun kb hkb => ?_) _
        refine ih kb.2 (path ++ [kb.1]) ?_
        rw [← hkids] at hkb
        obtain ⟨pv, hpv, hent⟩ := kidsOf_mem hkb
        exact Deeply_entries (Deeply_read hs hpv) hent
      rw [hkids, hfold]
      match hf : tkFoldAux (fun kb => declaredF n kb.2 (path ++ [kb.1]) root)
          (specKidsOf s) (.ok [] []) with
      | TR.out => rfl
      | TR.err => rfl
      | TR.ok wp dp =>
          show refStep (fun t => traverseF n t path root) root s (ownWrites s path) wp dp =
            specRefStep (fun t => declaredF n t path root) root s (ownWrites s path) wp dp
          unfold refStep specRefStep
          match href : jsRead s "$ref" with
          | none => simp only [href]
          | some rv =>
              by_cases ht : truthy rv
              · obtain ⟨r, name, hrv, hname⟩ := localSane_ref hls href ht
                subst hrv
                simp only [href, ht, if_true, hname, resolveRef_of_name hname]
                match hres : (jsRead root "$defs").bind fun dv => jsRead dv name with
                | none => simp only [hres]
                | some t =>
                    simp only [hres]
                    by_cases htt : truthy t
                    · simp only [htt, if_true]
                      have hdt : Deeply t := by
                        match hdv : jsRead root "$defs" with
                        | none => rw [hdv] at hres; exact Option.noConfusion hres
                        | some dv =>
                            rw [hdv] at hres
                            simp only [Option.some_bind] at hres
                            exact Deeply_read (Deeply_read hroot hdv) hres
                      rw [ih t path hdt]
                    · simp only [Bool.not_eq_true] at htt
                      simp [htt]
              · simp only [Bool.not_eq_true] at ht
                simp [href, ht]

theorem trBind_ne_err {a : TR} {f : List (List String × JVal) → List String → TR}
    (ha : a ≠ TR.err) (hf : ∀ w d, f w d ≠ TR.err) : trBind a f ≠ TR.err := by
  match a, ha with
  | TR.out, _ => intro h; exact TR.noConfusion h
  | TR.ok w d, _ => exact hf w d

theorem tkFoldAux_ne_err {f : String × JVal → TR} {l : List (String × JVal)} {acc : TR}
    (hacc : acc ≠ TR.err) (hf : ∀ kb ∈ l, f kb ≠ TR.err) :
    tkFoldAux f l acc ≠ TR.err := by
  induction l generalizing acc with
  | nil => exact hacc
  | cons kb rest ih =>
      refine ih ?_ fun b hb => hf b (List.mem_cons_of_mem _ hb)
      match acc, hacc with
      | TR.out, _ => intro h; exact TR.noConfusion h
      | TR.ok w1 d1, _ =>
          show trBind (f kb) _ ≠ TR.err
          match hkb : f kb with
          | TR.err => exact absurd hkb (hf kb (List.mem_cons_self _ _))
          | TR.out => intro h; exact TR.noConfusion h
          | TR.ok w2 d2 => intro h; exact TR.noConfusion h

theorem specRefStep_ne_err {recur : JVal → TR} {root s : JVal}
    {own wp : List (List String × JVal)} {dp : List String}
    (h : ∀ t, recur t ≠ TR.err) :
    specRefStep recur root s own wp dp ≠ TR.err := by
  unfold specRefStep
  split
  · split
    · split
      · split
        · split
          · split
            · rename_i t _ _
              exact trBind_ne_err (h t) fun w d e => TR.noConfusion e
            · intro e; exact TR.noConfusion e
          · intro e; exact TR.noConfusion e
        · intro e; exact TR.noConfusion e
      · intro e; exact TR.noConfusion e
    · intro e; exact TR.noConfusion e
  · intro e; exact TR.noConfusion e

/-- The spec-side traversal never raises an error: every failure mode of the
spec's algorithm is a non-fatal skip. -/
theorem declaredF_ne_err : ∀ (n : Nat) (s : JVal) (path : List String) (root : JVal),
    declaredF n s path root ≠ TR.err := by
  intro n
  induction n with
  | zero => intro s path root h; exact TR.noConfusion h
  | succ n ih =>
      intro s path root
      rw [declaredF]
      refine trBind_ne_err
        (tkFoldAux_ne_err (fun e => TR.noConfusion e) fun kb _ => ih kb.2 _ root) ?_
      intro wp dp
      exact specRefStep_ne_err fun t => ih t path root

theorem foldl_max_le (f : String → Nat) (l : List String) :
    ∀ init, init ≤ l.foldl (fun m x => max m (f x + 1)) init := by
  induction l with
  | nil => intro init; exact Nat.le_refl _
  | cons r rest ih =>
      intro init
      exact Nat.le_trans (Nat.le_max_left _ (f r + 1)) (ih _)

theorem foldl_max_lt (f : String → Nat) (l : List String) :
    ∀ init, ∀ r ∈ l, f r < l.foldl (fun m x => max m (f x + 1)) init := by
  induction l with
  | nil => intro init r hr; simp at hr
  | cons x rest ih =>
      intro init r hr
      rcases List.mem_cons.mp hr with he | hm
      · subst he
        have h1 : f r + 1 ≤ max init (f r + 1) := Nat.le_max_right _ _
        have h2 := foldl_max_le f rest (max init (f r + 1))
        show f r < rest.foldl (fun m x => max m (f x + 1)) (max init (f r + 1))
        omega
      · exact ih _ r hm

/-! ## The controller (the `AssistantEdit` component state)

`Ctrl` holds the three pieces of state the component reads and writes while
loaded: the RTK-cached server document `config.config` (the spec's
last-synced ConfigurationDocument), the `formData` React state (FormState;
`none` initially, as `useState<object>()` starts `undefined`), and the
`isDirty` React state (DirtyFlag). -/

structure Ctrl where
  lastSynced : JVal
  formData : Option JVal
  isDirty : Bool
deriving DecidableEq

/-- Modelled from the spec: `Utility.deepDiff` (`src/libs/Utility.ts` is not
among the inspected sources) per §4.1: "for every key present in either
operand, if both values are structurally equal (recursively, for nested
mappings) skip it, else record it as changed".  Only the changed-key list
matters to the component (`Object.keys(diff).length > 0`, line 83). -/
def deepDiffKeys (a b : JVal) : List String :=
  (((jsEntries a).map Prod.fst) ++
      (((jsEntries b).map Prod.fst).filter
        fun k => !(((jsEntries a).map Prod.fst).contains k))).filter
    fun k => decide (jsRead a k ≠ jsRead b k)

/-- The dirty-recomputation effect (source lines 79–85): guarded by the
truthiness of `config?.config` and `formData`, it sets DirtyFlag to "the
deep diff has at least one changed key". -/
def recomputeDirty (c : Ctrl) : Ctrl :=
  match c.formData with
  | some fd =>
      if truthy c.lastSynced && truthy fd then
        { c with isDirty := decide (deepDiffKeys c.lastSynced fd ≠ []) }
      else c
  | none => c

/-- `restoreConfig` (source lines 91–94) invoked by the Reset button with
`newConfig := config.config`, followed by the dirty-recomputation effect. -/
def restoreConfig (c : Ctrl) : Ctrl :=
  recomputeDirty { c with formData := some c.lastSynced }

/-- Outcome of the remote `updateConfig` request. -/
inductive SaveResult where
  | ok : SaveResult
  | failed : SaveResult

/-- A remote request issued by a controller action. -/
inductive Req where
  | updateConfig : JVal → Req
deriving DecidableEq

/-- `handleChange` (source lines 65–70) run to completion (through the
settled mutation), followed by the dirty-recomputation effect.

* `setFormData(updatedConfig)` runs before the request; in both save flows
  `updatedConfig` is the live `formData` object itself.
* The RTK Query mutation promise *resolves* with an `{error}` payload rather
  than rejecting, so `await` completes and `setDirty(false)` runs whether or
  not the save succeeded.
* On success the query cache replaces `config.config` with the saved
  document (modelled from the spec: "On success, replaces the last-synced
  document with the saved value"); a failed request leaves it unchanged.
* The effect of lines 79–85 re-runs only when `config` or `formData`
  changed (React re-renders on new state); after a failed save of the
  current `formData` object neither changed, so DirtyFlag stays as
  `setDirty` left it. -/
def handleChange (c : Ctrl) (updated : JVal) (r : SaveResult) : Ctrl × List Req :=
  let c1 : Ctrl :=
    { lastSynced :=
        match r with
        | .ok => updated
        | .failed => c.lastSynced,
      formData := some updated,
      isDirty := false }
  (if c1.lastSynced = c.lastSynced ∧ c1.formData = c.formData then c1 else recomputeDirty c1,
   [Req.updateConfig updated])

/-- The Save button (source line 124): `onClick={() => handleChange(formData
?? {})}`. -/
def saveClick (c : Ctrl) (r : SaveResult) : Ctrl × List Req :=
  handleChange c
    (match c.formData with
     | some fd => fd
     | none => JVal.obj []) r

/-- The form's `onChange` (source lines 161–163): `setFormData(data.formData)`
and nothing else, followed by the dirty-recomputation effect (the form hands
over a fresh object, so the effect's dependencies always change). -/
def onFieldChange (c : Ctrl) (v : JVal) : Ctrl × List Req :=
  (recomputeDirty { c with formData := some v }, [])

theorem recomputeDirty_frame (c : Ctrl) :
    (recomputeDirty c).lastSynced = c.lastSynced ∧
      (recomputeDirty c).formData = c.formData := by
  obtain ⟨ls, fd, b⟩ := c
  match fd with
  | none => exact ⟨rfl, rfl⟩
  | some v =>
      refine ⟨?_, ?_⟩ <;>
        (simp only [recomputeDirty]; split <;> rfl)

theorem deepDiffKeys_refl (x : JVal) : deepDiffKeys x x = [] := by
  unfold deepDiffKeys
  apply List.filter_eq_nil_iff.mpr
  intro k hk
  simp

/-! ## Interleaving model for concurrent saves

The save handler is `async`: everything before the `await` runs
synchronously on click, the `setDirty(false)` continuation runs when the
request settles.  `UIState.inFlight` counts `updateConfig` requests issued
and not yet settled; `uiStep` enables `clickSave` exactly when the Save
button is enabled (`disabled={!isDirty}`, source line 124 — the button is
*not* disabled while a save is in flight). -/

structure UIState where
  lastSynced : JVal
  formData : Option JVal
  isDirty : Bool
  inFlight : Nat
deriving DecidableEq

/-- User-visible events of an editing session. -/
inductive UIEvent where
  | clickSave : UIEvent
  | saveSettles : SaveResult → UIEvent
  | editField : JVal → UIEvent

/-- One step of the component under an event; `none` when the event is not
enabled (a disabled button cannot be clicked; a request cannot settle if
none is in flight).  `clickSave` performs the pre-`await` half of
`handleChange` (`setFormData` of the same object) and issues the request;
`saveSettles` runs the continuation `setDirty(false)` (the mutation promise
resolves on failure too); the cache bookkeeping of a settled successful
save is elided here — only the request count matters to this model (the
`Ctrl` model above covers document/dirty bookkeeping). -/
def uiStep : UIState → UIEvent → Option UIState
  | s, .clickSave =>
      if s.isDirty then
        some { s with
          formData := some
            (match s.formData with
             | some fd => fd
             | none => JVal.obj []),
          inFlight := s.inFlight + 1 }
      else none
  | s, .saveSettles _ =>
      if s.inFlight > 0 then
        some { s with inFlight := s.inFlight - 1, isDirty := false }
      else none
  | s, .editField v =>
      some { s with
        formData := some v,
        isDirty :=
          if truthy s.lastSynced && truthy v then decide (deepDiffKeys s.lastSynced v ≠ [])
          else s.isDirty }

/-- Run a sequence of events, failing if any event is not enabled. -/
def runEvents : UIState → List UIEvent → Option UIState
  | s, [] => some s
  | s, e :: rest =>
      match uiStep s e with
      | some s2 => runEvents s2 rest
      | none => none

/-! ## Concrete schemas used by the claims -/

/-- The spec's §8 scenario: `{ properties: { x: { default: 1 }, y: { $ref:
"#/$defs/Y" } }, $defs: { Y: { default: 2 } } }`. -/
def schemaXY : JVal :=
  JVal.obj
    [("properties", JVal.obj
        [("x", JVal.obj [("default", JVal.num 1)]),
         ("y", JVal.obj [("$ref", JVal.str "#/$defs/Y")])]),
     ("$defs", JVal.obj [("Y", JVal.obj [("default", JVal.num 2)])])]

/-- A genuine same-path tie: a direct property default for `x` and a
`$ref`-supplied default for the same `x`. -/
def schemaTie : JVal :=
  JVal.obj
    [("properties", JVal.obj [("x", JVal.obj [("default", JVal.num 1)])]),
     ("$ref", JVal.str "#/$defs/Z"),
     ("$defs", JVal.obj
        [("Z", JVal.obj
            [("properties", JVal.obj [("x", JVal.obj [("default", JVal.num 9)])])])])]

/-- The spec's §8 unresolved-reference scenario: sibling defaults `a` and `c`
around a `$ref` whose target is missing from `$defs`. -/
def schemaMissing : JVal :=
  JVal.obj
    [("properties", JVal.obj
        [("a", JVal.obj [("default", JVal.num 1)]),
         ("b", JVal.obj [("$ref", JVal.str "#/$defs/Missing")]),
         ("c", JVal.obj [("default", JVal.num 3)])]),
     ("$defs", JVal.obj [])]

/-- A schema whose root node itself declares a default. -/
def schemaRootDefault : JVal :=
  JVal.obj [("default", JVal.num 1)]

/-- A schema with both a root default and a root `$ref` whose target also
declares a (different) default. -/
def schemaRootRef : JVal :=
  JVal.obj
    [("default", JVal.num 1), ("$ref", JVal.str "#/$defs/X"),
     ("$defs", JVal.obj [("X", JVal.obj [("default", JVal.num 2)])])]

/-- A schema with a root default and an ordinary property default. -/
def schemaRootAndProp : JVal :=
  JVal.obj
    [("default", JVal.num 7),
     ("properties", JVal.obj [("p", JVal.obj [("default", JVal.num 3)])])]

/-- A node that is only an unresolvable reference. -/
def nodeMissingRef : JVal :=
  JVal.obj [("$ref", JVal.str "#/$defs/Missing")]

/-! ## Claims -/

/-- C3: when a schema node contains both direct `properties` and a `$ref`,
both are traversed, properties first, so a `$ref`-supplied default at the
same path overwrites a properties-supplied one.  On the spec's scenario
schema the extraction yields exactly `{ x: 1, y: 2 }`; on a schema with a
genuine same-path tie the property write (`x ↦ 1`) happens first and the
`$ref` write (`x ↦ 9`) second and wins in the final document. -/
theorem c3_properties_then_ref_overwrites :
    extractDefaultsFromSchema 5 schemaXY =
      some (JVal.obj [("x", JVal.num 1), ("y", JVal.num 2)]) ∧
    traverseF 5 schemaXY [] schemaXY =
      TR.ok [(["x"], JVal.num 1), (["y"], JVal.num 2)] [] ∧
    traverseF 5 schemaTie [] schemaTie =
      TR.ok [(["x"], JVal.num 1), (["x"], JVal.num 9)] [] ∧
    extractDefaultsFromSchema 5 schemaTie = some (JVal.obj [("x", JVal.num 9)]) := by
  decide

/-- C4: a `$ref` whose target is absent from the `$defs` table is non-fatal:
a node holding only such a reference completes with no writes and exactly the
`Reference not found` diagnostic (first conjunct, for every such node); on
the spec's scenario schema the traversal completes, omits the unresolved
subtree's path, and still contains both sibling defaults (remaining
conjuncts). -/
theorem c4_unresolved_ref_nonfatal :
    (∀ (n : Nat) (s root : JVal) (path : List String) (r : String),
      s ≠ JVal.null →
      jsRead s "default" = none →
      jsRead s "properties" = none →
      jsRead s "$ref" = some (JVal.str r) →
      truthy (JVal.str r) = true →
      resolveRef root r = none →
      traverseF (n + 1) s path root = TR.ok [] ["Reference not found: " ++ r]) ∧
    traverseF 5 schemaMissing [] schemaMissing =
      TR.ok [(["a"], JVal.num 1), (["c"], JVal.num 3)]
        ["Reference not found: #/$defs/Missing"] ∧
    extractDefaultsFromSchema 5 schemaMissing =
      some (JVal.obj [("a", JVal.num 1), ("c", JVal.num 3)]) := by
  refine ⟨?_, by decide, by decide⟩
  intro n s root path r hnn hd hp href ht hres
  rw [traverseF, if_neg hnn]
  have hk : kidsOf s = [] := by unfold kidsOf; simp only [hp]
  rw [hk]
  show refStep (fun t => traverseF n t path root) root s (ownWrites s path) [] []
    = TR.ok [] ["Reference not found: " ++ r]
  unfold refStep
  simp only [href, ht, if_true, hres]
  unfold ownWrites
  simp only [hd, List.nil_append]

/-- Witness for the universally-quantified part of C4 at a concrete node. -/
theorem c4_witness :
    traverseF 1 nodeMissingRef [] (JVal.obj []) =
      TR.ok [] ["Reference not found: #/$defs/Missing"] :=
  c4_unresolved_ref_nonfatal.1 0 nodeMissingRef (JVal.obj []) [] "#/$defs/Missing"
    (by decide) rfl rfl rfl (by decide) rfl

/-- C6 counterexample: the claim quantifies over every path "not extended by
a later write"; the path `["a","b"]` is not extended by a later write at
`["a"]` (it is not an initial segment of `["a"]`), yet that write destroys
the value previously written at `["a","b"]`. -/
theorem c6_counterexample :
    isLead ["a", "b"] ["a"] = false ∧
    getPath (setDefault (JVal.obj []) ["a", "b"] (JVal.num 7)) ["a", "b"] =
      some (JVal.num 7) ∧
    getPath (setDefault (setDefault (JVal.obj []) ["a", "b"] (JVal.num 7)) ["a"] (JVal.num 5))
      ["a", "b"] = none := by
  decide

/-- C6 as amended: a `setDefault` write at path `p` leaves the document
unchanged at every path `q` that *diverges* from `p` (neither path is an
initial segment of the other) — in particular sibling subtrees such as
`["a","c"]` vs `["a","b"]` are never aliased or mutated; only a write at a
prefix (an overwrite) or an extension of `q` can change the value at `q`. -/
theorem c6_amended_frame (d v : JVal) (p q : List String) (h : diverges p q = true) :
    getPath (setDefault d p v) q = getPath d q :=
  setDefault_frame p d v q h

/-- Witness for C6 as amended, at the claim's own sibling paths. -/
theorem c6_amended_witness :
    diverges ["a", "b"] ["a", "c"] = true ∧
    getPath
        (setDefault (JVal.obj [("a", JVal.obj [("c", JVal.num 3)])]) ["a", "b"] (JVal.num 7))
        ["a", "c"] =
      getPath (JVal.obj [("a", JVal.obj [("c", JVal.num 3)])]) ["a", "c"] :=
  ⟨by decide,
   c6_amended_frame (JVal.obj [("a", JVal.obj [("c", JVal.num 3)])]) (JVal.num 7)
     ["a", "b"] ["a", "c"] (by decide)⟩

/-- C7 counterexample: from a dirty state with no request in flight, two
consecutive Save clicks are both enabled (the button is disabled only when
the form is not dirty, and the dirty flag is cleared only when a request
settles), leaving two concurrent `updateConfig` requests in flight. -/
theorem c7_counterexample :
    runEvents
        ⟨JVal.obj [("x", JVal.num 1)], some (JVal.obj [("x", JVal.num 2)]), true, 0⟩
        [UIEvent.clickSave, UIEvent.clickSave] =
      some ⟨JVal.obj [("x", JVal.num 1)], some (JVal.obj [("x", JVal.num 2)]), true, 2⟩ := by
  decide

/-- C7 as amended: a save attempted while a previous save is in flight is
neither rejected nor queued — from any dirty state two Save clicks are
enabled back-to-back and leave two more requests in flight than before. -/
theorem c7_amended_double_save (s : UIState) (h : s.isDirty = true) :
    ∃ s1 s2, uiStep s UIEvent.clickSave = some s1 ∧
      uiStep s1 UIEvent.clickSave = some s2 ∧ s2.inFlight = s.inFlight + 2 := by
  refine
    ⟨{ s with
        formData := some
          (match s.formData with
           | some fd => fd
           | none => JVal.obj []),
        inFlight := s.inFlight + 1 },
     { s with
        formData := some
          (match s.formData with
           | some fd => fd
           | none => JVal.obj []),
        inFlight := s.inFlight + 1 + 1 }, ?_, ?_, rfl⟩
  · simp only [uiStep, h, if_true]
  · simp only [uiStep, h, if_true]

/-- Witness for C7 as amended at a concrete dirty state. -/
theorem c7_amended_witness :
    ∃ s1 s2,
      uiStep ⟨JVal.obj [("x", JVal.num 1)], some (JVal.obj [("x", JVal.num 2)]), true, 0⟩
          UIEvent.clickSave = some s1 ∧
      uiStep s1 UIEvent.clickSave = some s2 ∧
      s2.inFlight =
        (⟨JVal.obj [("x", JVal.num 1)], some (JVal.obj [("x", JVal.num 2)]), true, 0⟩ :
          UIState).inFlight + 2 :=
  c7_amended_double_save
    ⟨JVal.obj [("x", JVal.num 1)], some (JVal.obj [("x", JVal.num 2)]), true, 0⟩ rfl

/-- C9: the form's `onChange` handler replaces FormState with the new value
and performs only local recomputation: it issues no remote request and
leaves the last-synced document untouched (only `formData` and the
recomputed `isDirty` can change). -/
theorem c9_onFieldChange_local (c : Ctrl) (v : JVal) :
    (onFieldChange c v).2 = [] ∧
    (onFieldChange c v).1.formData = some v ∧
    (onFieldChange c v).1.lastSynced = c.lastSynced := by
  refine ⟨rfl, ?_, ?_⟩
  · exact (recomputeDirty_frame { c with formData := some v }).2
  · exact (recomputeDirty_frame { c with formData := some v }).1

/-- C1 (code-bug evidence): saving the current form data and having the
remote update *fail* leaves FormState untouched as the claim says, but —
because the RTK Query mutation promise resolves even on error, so line 69's
`setDirty(false)` always runs — DirtyFlag ends up `false`, not `true`: the
failed save is locally indistinguishable from a successful one. -/
theorem save_failure_clears_dirty (ls fd : JVal) :
    (saveClick ⟨ls, some fd, true⟩ SaveResult.failed).1.formData = some fd ∧
    (saveClick ⟨ls, some fd, true⟩ SaveResult.failed).1.isDirty = false ∧
    (saveClick ⟨ls, some fd, true⟩ SaveResult.failed).2 = [Req.updateConfig fd] := by
  simp [saveClick, handleChange]

/-- C5: the structural diff of a document with itself is empty; consequently
DirtyFlag is false immediately after `reset()` (the Reset button restoring
`config.config`) and immediately after a successful `save()` (the truthiness
hypotheses mirror the guard of the recomputation effect, lines 80–84, and the
presence of a loaded form). -/
theorem c5_diff_refl_clean_after_reset_and_save :
    (∀ x : JVal, deepDiffKeys x x = []) ∧
    (∀ c : Ctrl, truthy c.lastSynced = true → (restoreConfig c).isDirty = false) ∧
    (∀ (c : Ctrl) (fd : JVal), c.formData = some fd →
      (saveClick c SaveResult.ok).1.isDirty = false) := by
  refine ⟨deepDiffKeys_refl, ?_, ?_⟩
  · intro c hls
    unfold restoreConfig recomputeDirty
    simp [hls, deepDiffKeys_refl]
  · intro c fd hfd
    unfold saveClick handleChange
    simp only [hfd]
    split
    · rfl
    · unfold recomputeDirty
      simp [deepDiffKeys_refl]

/-- Witness for C5 at concrete states. -/
theorem c5_witness :
    deepDiffKeys (JVal.obj [("a", JVal.num 1)]) (JVal.obj [("a", JVal.num 1)]) = [] ∧
    (restoreConfig
        ⟨JVal.obj [("x", JVal.num 1)], some (JVal.obj [("x", JVal.num 2)]), true⟩).isDirty
      = false ∧
    (saveClick ⟨JVal.obj [("x", JVal.num 1)], some (JVal.obj [("x", JVal.num 2)]), true⟩
        SaveResult.ok).1.isDirty = false :=
  ⟨c5_diff_refl_clean_after_reset_and_save.1 (JVal.obj [("a", JVal.num 1)]),
   c5_diff_refl_clean_after_reset_and_save.2.1
     ⟨JVal.obj [("x", JVal.num 1)], some (JVal.obj [("x", JVal.num 2)]), true⟩ (by decide),
   c5_diff_refl_clean_after_reset_and_save.2.2
     ⟨JVal.obj [("x", JVal.num 1)], some (JVal.obj [("x", JVal.num 2)]), true⟩
     (JVal.obj [("x", JVal.num 2)]) rfl⟩

/-- C8: on every schema tree whose `$ref` references form no cycle (witnessed
by a rank function on the `$defs` table) the traversal terminates: some
finite fuel completes it without exhaustion. -/
theorem c8_traversal_terminates (root : JVal) (h : NoCycle root) :
    ∃ n, traverseF n root [] root ≠ TR.out := by
  obtain ⟨rank, hrank⟩ := h
  refine
    ⟨sizeOf root +
        ((refsIn root).foldl (fun m x => max m (rank (refHead x) + 1)) 0) *
          (sizeOf root + 1), ?_⟩
  exact traverseF_enough root rank hrank _ _ root []
    (fun r hr => foldl_max_lt (fun x => rank (refHead x)) (refsIn root) 0 r hr)
    (Nat.le_refl _)

/-- Witness for C8 on the spec's scenario schema (its `$defs` table contains
no references, so the constant rank witnesses acyclicity). -/
theorem c8_witness : ∃ n, traverseF n schemaXY [] schemaXY ≠ TR.out :=
  c8_traversal_terminates schemaXY ⟨fun _ => 0, by decide⟩

theorem setDefault_head_other {doc v : JVal} {h0 : String} {t : List String} {k : String}
    (hne : h0 ≠ k) : jsRead (setDefault doc (h0 :: t) v) k = jsRead doc k := by
  match t with
  | [] => exact jsRead_jsSet_other fun e => hne e.symm
  | t1 :: t2 => exact jsRead_jsSet_other fun e => hne e.symm

theorem applyWrites_preserves_key {ws : List (List String × JVal)} {k : String} (d : JVal)
    (h : ∀ pv ∈ ws, ∃ h0 t, pv.1 = h0 :: t ∧ h0 ≠ k) :
    jsRead (applyWrites ws d) k = jsRead d k := by
  induction ws generalizing d with
  | nil => rfl
  | cons pv rest ih =>
      show jsRead (applyWrites rest (setDefault d pv.1 pv.2)) k = jsRead d k
      rw [ih _ fun b hb => h b (List.mem_cons_of_mem _ hb)]
      obtain ⟨h0, t, hp, hne⟩ := h pv (List.mem_cons_self _ _)
      rw [hp]
      exact setDefault_head_other hne

/-- C2 counterexample: on the schema `{ default: 1 }` the only declared
default sits at the root path `[]` with value `1`, but the produced document
is `{ "undefined": 1 }` — the declared path is not mapped to its declared
value (and the extra path `["undefined"]` is present instead). -/
theorem c2_counterexample :
    declaredF 2 schemaRootDefault [] schemaRootDefault = TR.ok [([], JVal.num 1)] [] ∧
    extractDefaultsFromSchema 2 schemaRootDefault =
      some (JVal.obj [("undefined", JVal.num 1)]) ∧
    getPath (JVal.obj [("undefined", JVal.num 1)]) [] ≠ some (JVal.num 1) := by
  decide

/-- C2 as amended: on every well-formed (`Sane`) schema tree with no `$ref`
cycles the extraction terminates with the same write list, in the same
order, as the spec's reading of "the declared defaults" (`declaredF`), and
the document is obtained by replaying exactly those writes; whenever the
declared paths are nonempty and pairwise diverging, the document contains
every declared path mapped to its declared value, and no path unrelated to
the declared ones.  (A root-level declared default — the empty path — is
instead written under the literal key `"undefined"`, see C10.) -/
theorem c2_amended (root : JVal) (hs : Sane root = true) (hnc : NoCycle root) :
    ∃ n ws ds,
      traverseF n root [] root = TR.ok ws ds ∧
      declaredF n root [] root = TR.ok ws ds ∧
      extractDefaultsFromSchema n root = some (applyWrites ws (JVal.obj [])) ∧
      ((∀ pv ∈ ws, pv.1 ≠ []) →
        List.Pairwise (fun a b => diverges a.1 b.1 = true) ws →
        (∀ pv ∈ ws, getPath (applyWrites ws (JVal.obj [])) pv.1 = some pv.2) ∧
        (∀ q : List String, q ≠ [] → (∀ pv ∈ ws, diverges q pv.1 = true) →
          getPath (applyWrites ws (JVal.obj [])) q = none)) := by
  obtain ⟨rank, hrank⟩ := hnc
  have hroot := Sane_Deeply hs
  have hout : traverseF
      (sizeOf root +
        ((refsIn root).foldl (fun m x => max m (rank (refHead x) + 1)) 0) *
          (sizeOf root + 1)) root [] root ≠ TR.out :=
    traverseF_enough root rank hrank _ _ root []
      (fun r hr => foldl_max_lt (fun x => rank (refHead x)) (refsIn root) 0 r hr)
      (Nat.le_refl _)
  have heq := traverse_eq_declared root hroot
    (sizeOf root +
      ((refsIn root).foldl (fun m x => max m (rank (refHead x) + 1)) 0) * (sizeOf root + 1))
    root [] hroot
  have herr : traverseF
      (sizeOf root +
        ((refsIn root).foldl (fun m x => max m (rank (refHead x) + 1)) 0) *
          (sizeOf root + 1)) root [] root ≠ TR.err := by
    rw [heq]
    exact declaredF_ne_err _ root [] root
  match htr : traverseF
      (sizeOf root +
        ((refsIn root).foldl (fun m x => max m (rank (refHead x) + 1)) 0) *
          (sizeOf root + 1)) root [] root with
  | TR.out => exact absurd htr hout
  | TR.err => exact absurd htr herr
  | TR.ok ws ds =>
      refine ⟨_, ws, ds, htr, heq.symm.trans htr, ?_, ?_⟩
      · unfold extractDefaultsFromSchema
        simp only [htr]
      · intro hne hpw
        refine ⟨fun pv hpv => applyWrites_complete (d := JVal.obj []) rfl hpw pv hpv (hne pv hpv), ?_⟩
        intro q hq hdiv
        rw [applyWrites_frame _ fun pv hpv => diverges_symm (hdiv pv hpv)]
        exact getPath_empty_obj hq

/-- Witness for C2 as amended on the spec's scenario schema. -/
theorem c2_amended_witness :
    Sane schemaXY = true ∧
    (∃ n ws ds,
      traverseF n schemaXY [] schemaXY = TR.ok ws ds ∧
      declaredF n schemaXY [] schemaXY = TR.ok ws ds ∧
      extractDefaultsFromSchema n schemaXY = some (applyWrites ws (JVal.obj [])) ∧
      ((∀ pv ∈ ws, pv.1 ≠ []) →
        List.Pairwise (fun a b => diverges a.1 b.1 = true) ws →
        (∀ pv ∈ ws, getPath (applyWrites ws (JVal.obj [])) pv.1 = some pv.2) ∧
        (∀ q : List String, q ≠ [] → (∀ pv ∈ ws, diverges q pv.1 = true) →
          getPath (applyWrites ws (JVal.obj [])) q = none))) :=
  ⟨by decide, c2_amended schemaXY (by decide) ⟨fun _ => 0, by decide⟩⟩

/-- C10 counterexample: the root of `schemaRootRef` declares the default `1`,
but the extracted document does not map `"undefined"` to `1` — the root
`$ref`'s default (`2`) overwrites the same slot. -/
theorem c10_counterexample :
    jsRead schemaRootRef "default" = some (JVal.num 1) ∧
    extractDefaultsFromSchema 5 schemaRootRef =
      some (JVal.obj [("undefined", JVal.num 2)]) ∧
    jsRead (JVal.obj [("undefined", JVal.num 2)]) "undefined" ≠ some (JVal.num 1) := by
  decide

/-- C10 as amended: for a schema whose root declares a default `d`, has no
root `$ref`, and has no property key `"undefined"`, the root-level write
stores `d` under the literal string key `"undefined"` (the empty path
indexes `path[-1]`), so the extracted document maps `"undefined"` to `d` —
and the document is never `d` itself. -/
theorem c10_amended_undefined_key (root d : JVal) (n : Nat)
    (ws : List (List String × JVal)) (ds : List String)
    (hd : jsRead root "default" = some d)
    (href : jsRead root "$ref" = none)
    (hkeys : ∀ kb ∈ kidsOf root, kb.1 ≠ "undefined")
    (htr : traverseF n root [] root = TR.ok ws ds) :
    jsRead (applyWrites ws (JVal.obj [])) "undefined" = some d ∧
    extractDefaultsFromSchema n root = some (applyWrites ws (JVal.obj [])) ∧
    applyWrites ws (JVal.obj []) ≠ d := by
  have htr0 := htr
  match n with
  | 0 => exact absurd htr fun e => TR.noConfusion e
  | m + 1 =>
      have hnn : ¬(root = JVal.null) := by
        intro e
        subst e
        simp [jsRead, jsEntries, lookupField] at hd
      rw [traverseF, if_neg hnn] at htr
      match hf : tkFoldAux (fun kb => traverseF m kb.2 ([] ++ [kb.1]) root)
          (kidsOf root) (TR.ok [] []) with
      | TR.out => rw [hf] at htr; exact absurd htr fun e => TR.noConfusion e
      | TR.err => rw [hf] at htr; exact absurd htr fun e => TR.noConfusion e
      | TR.ok wp dp =>
          rw [hf] at htr
          simp only [trBind] at htr
          unfold refStep at htr
          simp only [href] at htr
          have hws : ws = ownWrites root [] ++ wp := (TR.ok.inj htr).1.symm
          have hown : ownWrites root [] = [([], d)] := by
            unfold ownWrites
            simp only [hd]
          rw [hown] at hws
          have hwp : ∀ pv ∈ wp, ∃ h0 t, pv.1 = h0 :: t ∧ h0 ≠ "undefined" := by
            intro pv hpv
            refine tkFoldAux_writes
              (fun pv => ∃ h0 t, pv.1 = h0 :: t ∧ h0 ≠ "undefined") ?_ ?_ hf pv hpv
            · intro w d2 hacc b hb
              obtain ⟨hw, -⟩ := TR.ok.inj hacc
              rw [← hw] at hb
              simp at hb
            · intro kb hkb w d2 hcall b hb
              have hlead := traverseF_writes_extend m kb.2 ([] ++ [kb.1]) root w d2 hcall b hb
              have hlead2 : isLead [kb.1] b.1 = true := by simpa using hlead
              match hb1 : b.1 with
              | [] => rw [hb1] at hlead2; simp [isLead] at hlead2
              | h0 :: t =>
                  rw [hb1] at hlead2
                  simp only [isLead] at hlead2
                  by_cases he : kb.1 = h0
                  · exact ⟨h0, t, rfl, he ▸ hkeys kb hkb⟩
                  · rw [if_neg he] at hlead2
                    exact absurd hlead2 (by simp)
          subst hws
          have happ : applyWrites ([([], d)] ++ wp) (JVal.obj []) =
              applyWrites wp (JVal.obj [("undefined", d)]) := rfl
          have h1 : jsRead (applyWrites ([([], d)] ++ wp) (JVal.obj [])) "undefined" = some d := by
            rw [happ, applyWrites_preserves_key _ hwp]
            simp [jsRead, jsEntries, lookupField]
          refine ⟨h1, ?_, ?_⟩
          · unfold extractDefaultsFromSchema
            simp only [htr0]
          · intro he
            rw [he] at h1
            exact absurd (jsRead_size h1) (Nat.lt_irrefl _)

/-- Witness for C10 as amended on `schemaRootAndProp`. -/
theorem c10_witness :
    jsRead (applyWrites [([], JVal.num 7), (["p"], JVal.num 3)] (JVal.obj [])) "undefined" =
      some (JVal.num 7) ∧
    extractDefaultsFromSchema 3 schemaRootAndProp =
      some (applyWrites [([], JVal.num 7), (["p"], JVal.num 3)] (JVal.obj [])) ∧
    applyWrites [([], JVal.num 7), (["p"], JVal.num 3)] (JVal.obj []) ≠ JVal.num 7 :=
  c10_amended_undefined_key schemaRootAndProp (JVal.num 7) 3
    [([], JVal.num 7), (["p"], JVal.num 3)] [] rfl rfl (by decide) (by decide)

end AssistantEdit
